import Mathlib

/-!
# Verification of the PR Correction Viewer (src/app.py)

Shallow embedding of the entry catalog, priority sorting, navigation state
machine, dataset loading, and diff engine of the Streamlit correction-viewer
application, together with theorems settling the specification claims.
-/

set_option maxRecDepth 4096

namespace PRViewer

/-- An entry of the corrections dataset, as consumed by the catalog code
(`src/app.py`): a well-formed record with all required fields present. -/
structure Entry where
  filename : String
  keywords : String
  explanation : String
  original_txt : String
  correction : String
deriving DecidableEq, Repr

/-- The fixed priority list `priority_order` of `src/app.py` line 63. -/
def priority_order : List String := ["grammar", "spelling", "capitalization", "punctuation"]

/-- Python's `str.split(',')`, on the character list of the string: split at
every comma, keeping empty segments (`''.split(',') == ['']`). -/
def splitCommaAux : List Char → List Char → List (List Char)
  | [], acc => [acc.reverse]
  | c :: cs, acc =>
    if c = ',' then acc.reverse :: splitCommaAux cs [] else splitCommaAux cs (c :: acc)

def splitComma (s : List Char) : List (List Char) := splitCommaAux s []

/-- The whitespace characters removed by Python's `str.strip()` (ASCII range). -/
def pyWhitespace (c : Char) : Bool :=
  c = ' ' || c = '\t' || c = '\n' || c = '\r' || c = '\x0b' || c = '\x0c'

/-- Python's `str.strip()`: drop leading and trailing whitespace. -/
def pyStrip (s : List Char) : List Char :=
  ((s.dropWhile pyWhitespace).reverse.dropWhile pyWhitespace).reverse

/-- Python's `str.lower()` on one character (ASCII range). -/
def pyLowerChar (c : Char) : Char :=
  if 'A' ≤ c && c ≤ 'Z' then Char.ofNat (c.toNat + 32) else c

/-- Python's `str.lower()`. -/
def pyLower (s : List Char) : List Char := s.map pyLowerChar

/-- The normalized keyword list of a raw keywords string: `src/app.py`
line 66, `[k.strip().lower() for k in entry['keywords'].split(',')]`,
modelled on the character lists of the strings. -/
def normKeywordsStr (kws : String) : List (List Char) :=
  (splitComma kws.data).map (fun k => pyLower (pyStrip k))

/-- The normalized keyword list of an entry (`src/app.py` line 66). -/
def normKeywords (e : Entry) : List (List Char) :=
  normKeywordsStr e.keywords

/-- The body of `get_priority` of `src/app.py` lines 65-70 as a function of
the keywords string: the index of the first element of `priority_order`
occurring among the normalized keywords, or the length of `priority_order`
when none occurs (Python's loop with a final `return len(priority_order)`;
`List.findIdx` returns the length on no match). -/
def priorityOfKeywords (kws : String) : Nat :=
  priority_order.findIdx (fun kw => (normKeywordsStr kws).contains kw.data)

/-- `get_priority` of `src/app.py` lines 65-70. -/
def get_priority (e : Entry) : Nat :=
  priorityOfKeywords e.keywords

/-- `files_dict` bucket content before sorting, `src/app.py` lines 72-74:
the `(idx, entry)` pairs of the input, in input order, whose filename is `fn`. -/
def rawBucket (data : List Entry) (fn : String) : List (Nat × Entry) :=
  data.enum.filter (fun p => p.2.filename == fn)

/-- Stable insertion of an element into a list according to a natural-number
key: the element passes over exactly the strictly-smaller-keyed prefix. -/
def insertKey {α : Type} (f : α → Nat) (x : α) : List α → List α
  | [] => [x]
  | y :: ys => if f x ≤ f y then x :: y :: ys else y :: insertKey f x ys

/-- Stable insertion sort by a natural-number key.  Models Python's
`list.sort(key=...)` (`src/app.py` line 77), which is guaranteed stable and
ascending by the language's documentation. -/
def sortKey {α : Type} (f : α → Nat) : List α → List α
  | [] => []
  | x :: xs => insertKey f x (sortKey f xs)

/-- The sorted bucket of `files_dict` for a filename, `src/app.py` lines 72-77:
group by filename, then stable-sort by `get_priority` of the entry. -/
def filesDict (data : List Entry) (fn : String) : List (Nat × Entry) :=
  sortKey (fun p => get_priority p.2) (rawBucket data fn)

section FindIdxLemmas

theorem findIdx_eq_of_first {p : String → Bool} :
    ∀ (l : List String) (i : Nat) (hi : i < l.length),
      p (l.get ⟨i, hi⟩) = true →
      (∀ j (hj : j < l.length), j < i → p (l.get ⟨j, hj⟩) = false) →
      l.findIdx p = i := by
  intro l
  induction l with
  | nil => intro i h; simp at h
  | cons x xs ih =>
    intro i hi hp hall
    cases i with
    | zero =>
      simp at hp
      simp [List.findIdx_cons, hp]
    | succ n =>
      have hx : p x = false := hall 0 (by simp) (Nat.succ_pos n)
      simp [List.findIdx_cons, hx]
      exact ih n (by simpa using hi) (by simpa using hp)
        (fun j hj hlt => hall (j + 1) (by simpa using hj) (by omega))

theorem findIdx_eq_length_of_none {p : String → Bool} :
    ∀ (l : List String), (∀ kw ∈ l, p kw = false) →
      l.findIdx p = l.length := by
  intro l
  induction l with
  | nil => simp
  | cons x xs ih =>
    intro h
    have hx : p x = false := h x (List.mem_cons_self _ _)
    simp [List.findIdx_cons, hx, ih (fun kw hkw => h kw (List.mem_cons_of_mem _ hkw))]

theorem findIdx_congr {α : Type} {p q : α → Bool} :
    ∀ (l : List α), (∀ x ∈ l, p x = q x) → l.findIdx p = l.findIdx q := by
  intro l
  induction l with
  | nil => simp
  | cons x xs ih =>
    intro h
    have hx : p x = q x := h x (List.mem_cons_self _ _)
    simp only [List.findIdx_cons, hx, ih (fun a ha => h a (List.mem_cons_of_mem _ ha))]

theorem findIdx_le_of_mem {p : String → Bool} :
    ∀ (l : List String) (i : Nat) (hi : i < l.length),
      p (l.get ⟨i, hi⟩) = true →
      l.findIdx p ≤ i := by
  intro l
  induction l with
  | nil => intro i h; simp at h
  | cons x xs ih =>
    intro i hi hp
    cases i with
    | zero =>
      simp at hp
      simp [List.findIdx_cons, hp]
    | succ n =>
      by_cases hx : p x
      · simp [List.findIdx_cons, hx]
      · simp only [List.findIdx_cons, hx, cond_false]
        have := ih n (by simpa using hi) (by simpa using hp)
        omega

end FindIdxLemmas

section SortLemmas

variable {α : Type} (f : α → Nat)

theorem mem_insertKey (x a : α) :
    ∀ (l : List α), a ∈ insertKey f x l ↔ a = x ∨ a ∈ l := by
  intro l
  induction l with
  | nil => simp [insertKey]
  | cons y ys ih =>
    by_cases h : f x ≤ f y
    · simp [insertKey, h]
    · simp [insertKey, h, ih]
      try tauto

theorem mem_sortKey (a : α) :
    ∀ (l : List α), a ∈ sortKey f l ↔ a ∈ l := by
  intro l
  induction l with
  | nil => simp [sortKey]
  | cons x xs ih =>
    simp [sortKey, mem_insertKey, ih]
    try tauto

theorem pairwise_insertKey (x : α) :
    ∀ (l : List α), l.Pairwise (fun a b => f a ≤ f b) →
      (insertKey f x l).Pairwise (fun a b => f a ≤ f b) := by
  intro l
  induction l with
  | nil => intro _; simp [insertKey]
  | cons y ys ih =>
    intro hl
    rw [List.pairwise_cons] at hl
    by_cases h : f x ≤ f y
    · rw [insertKey, if_pos h, List.pairwise_cons]
      refine ⟨?_, by rw [List.pairwise_cons]; exact hl⟩
      intro b hb
      rcases List.mem_cons.mp hb with rfl | hb
      · exact h
      · exact le_trans h (hl.1 b hb)
    · rw [insertKey, if_neg h, List.pairwise_cons]
      refine ⟨?_, ih hl.2⟩
      intro b hb
      rcases (mem_insertKey f x b ys).mp hb with rfl | hb
      · omega
      · exact hl.1 b hb

theorem pairwise_sortKey :
    ∀ (l : List α), (sortKey f l).Pairwise (fun a b => f a ≤ f b) := by
  intro l
  induction l with
  | nil => simp [sortKey]
  | cons x xs ih => exact pairwise_insertKey f x _ ih

theorem filter_insertKey (p : α → Bool) (x : α) (hkeys : ∀ a b, p a = true → f b < f a → p b = false) :
    ∀ (l : List α),
      (insertKey f x l).filter p = if p x then x :: l.filter p else l.filter p := by
  intro l
  induction l with
  | nil => cases hx : p x <;> simp [insertKey, List.filter, hx]
  | cons y ys ih =>
    by_cases h : f x ≤ f y
    · cases hx : p x <;> simp [insertKey, h, List.filter_cons, hx]
    · -- x passes over y, so f y < f x; if p x holds then p y fails.
      rw [insertKey, if_neg h, List.filter_cons, List.filter_cons]
      cases hx : p x with
      | false => simp [ih, hx]
      | true =>
        have hy : p y = false := hkeys x y hx (by omega)
        simp [hy, ih, hx]

/-- Stability of the insertion sort, in the classic filter form: the sorted
list restricted to any fixed key value is the input restricted to that value,
hence equal-keyed elements keep their relative input order. -/
theorem filter_sortKey_eq (k : Nat) :
    ∀ (l : List α), (sortKey f l).filter (fun a => f a == k) = l.filter (fun a => f a == k) := by
  intro l
  induction l with
  | nil => simp [sortKey]
  | cons x xs ih =>
    have hkeys : ∀ a b, (f a == k) = true → f b < f a → (f b == k) = false := by
      intro a b ha hb
      have ha' : f a = k := by simpa using ha
      have hbne : f b ≠ k := by omega
      simpa using hbne
    rw [sortKey, filter_insertKey f _ x hkeys]
    cases hx : (f x == k) <;> simp [List.filter_cons, hx, ih]

end SortLemmas

/-- Formalisation of the spec's filtering predicate, written from the spec's
words, not from the code (the code of `src/app.py` builds `files_dict` from
every entry and has no keyword filter): an entry passes iff the selected
keyword set `K` is empty or a normalized keyword of the entry lies in `K`. -/
def specPassesFilter (K : List String) (e : Entry) : Bool :=
  K.isEmpty || (normKeywords e).any (fun k => K.any (fun s => s.data == k))

/-- C1 counterexample: with the non-empty filter set `K = ["x"]` and an entry
whose only keyword is `grammar`, the spec's filter predicate rejects the entry,
yet the catalog built by the code contains it: the code applies no filter, so
inclusion is not equivalent to `K` being empty or intersecting the keywords. -/
theorem claim_C1_counterexample :
    ((0, Entry.mk "a.txt" "grammar" "" "" "") ∈
        filesDict [Entry.mk "a.txt" "grammar" "" "" ""] "a.txt")
    ∧ specPassesFilter ["x"] (Entry.mk "a.txt" "grammar" "" "" "") = false := by
  constructor
  · decide
  · decide

/-- C1 (amended): the built catalog performs no keyword filtering at all: an
indexed entry lies in the bucket of filename `fn` iff it is an indexed entry of
the raw input whose filename is `fn`, irrespective of any selected keywords. -/
theorem claim_C1_no_filtering :
    ∀ (data : List Entry) (fn : String) (p : Nat × Entry),
      p ∈ filesDict data fn ↔ (p ∈ data.enum ∧ p.2.filename = fn) := by
  intro data fn p
  rw [filesDict, mem_sortKey, rawBucket, List.mem_filter]
  simp

/-- C1 witness for the amended claim, at a concrete catalog: membership of the
indexed entry in its filename's bucket is equivalent to it being an indexed
input entry with that filename. -/
theorem claim_C1_witness :
    (0, Entry.mk "b.txt" "spelling" "" "" "") ∈
        filesDict [Entry.mk "b.txt" "spelling" "" "" ""] "b.txt"
      ↔ ((0, Entry.mk "b.txt" "spelling" "" "" "") ∈
          ([Entry.mk "b.txt" "spelling" "" "" ""] : List Entry).enum
        ∧ (Entry.mk "b.txt" "spelling" "" "" "").filename = "b.txt") :=
  claim_C1_no_filtering _ _ _

/-- C5: `get_priority` returns the index of the first element of the fixed
priority list `[grammar, spelling, capitalization, punctuation]` that occurs
among the entry's normalized (trimmed, lowercased) keywords, and returns 4,
the length of the list, when no element of the list occurs among them. -/
theorem claim_C5_priority_rank :
    (∀ (e : Entry) (i : Nat) (hi : i < priority_order.length),
        (normKeywords e).contains (priority_order.get ⟨i, hi⟩).data = true →
        (∀ j (hj : j < priority_order.length), j < i →
            (normKeywords e).contains (priority_order.get ⟨j, hj⟩).data = false) →
        get_priority e = i)
    ∧ (∀ (e : Entry),
        (∀ kw ∈ priority_order, (normKeywords e).contains kw.data = false) →
        get_priority e = 4) := by
  constructor
  · intro e i hi h1 h2
    exact findIdx_eq_of_first (p := fun kw => (normKeywords e).contains kw.data)
      priority_order i hi h1 h2
  · intro e h
    exact findIdx_eq_length_of_none (p := fun kw => (normKeywords e).contains kw.data)
      priority_order h

/-- C5 witness: the entry with keywords `" Spelling, foo"` normalizes to
`[spelling, foo]`; `spelling` is the first priority keyword present, at
index 1 of the priority list, and `get_priority` returns 1. -/
theorem claim_C5_witness :
    get_priority (Entry.mk "a.txt" " Spelling, foo" "" "" "") = 1 :=
  claim_C5_priority_rank.1 _ 1 (by decide) (by decide) (by decide)

/-- C10: whenever some element of the priority list occurs among an entry's
normalized keywords, `get_priority` is at most every matching index and itself
a matching index — i.e. it is the smallest matching priority-list index; and
it depends only on which keywords occur (membership), not on the order in
which they appear in the comma-separated keywords string. -/
theorem claim_C10_min_rank :
    (∀ (e : Entry) (i : Nat) (hi : i < priority_order.length),
        (normKeywords e).contains (priority_order.get ⟨i, hi⟩).data = true →
        get_priority e ≤ i ∧
        ∃ hg : get_priority e < priority_order.length,
          (normKeywords e).contains (priority_order.get ⟨get_priority e, hg⟩).data = true)
    ∧ (∀ (e₁ e₂ : Entry),
        (∀ kw ∈ priority_order,
          (normKeywords e₁).contains kw.data = (normKeywords e₂).contains kw.data) →
        get_priority e₁ = get_priority e₂) := by
  constructor
  · intro e i hi h
    refine ⟨findIdx_le_of_mem (p := fun kw => (normKeywords e).contains kw.data)
      priority_order i hi h, ?_⟩
    have hlt : priority_order.findIdx
        (fun kw => (normKeywords e).contains kw.data) < priority_order.length := by
      apply List.findIdx_lt_length_of_exists
      exact ⟨priority_order.get ⟨i, hi⟩, List.get_mem _ _ hi, h⟩
    refine ⟨hlt, ?_⟩
    have := @List.findIdx_getElem _ (fun kw => (normKeywords e).contains kw.data) priority_order hlt
    simpa [get_priority, priorityOfKeywords, normKeywords] using this
  · intro e₁ e₂ h
    exact findIdx_congr priority_order (fun kw hkw => h kw hkw)

/-- C10 witness: the entries with keyword strings `"spelling, grammar"` and
`"grammar, spelling"` both rank 0: the smallest matching index (that of
`grammar`) wins regardless of the order in the comma-separated string. -/
theorem claim_C10_witness :
    (get_priority (Entry.mk "a.txt" "spelling, grammar" "" "" "") ≤ 0 ∧
      ∃ hg : get_priority (Entry.mk "a.txt" "spelling, grammar" "" "" "") < priority_order.length,
        (normKeywords (Entry.mk "a.txt" "spelling, grammar" "" "" "")).contains
          (priority_order.get ⟨get_priority (Entry.mk "a.txt" "spelling, grammar" "" "" ""), hg⟩).data = true)
    ∧ get_priority (Entry.mk "a.txt" "spelling, grammar" "" "" "")
      = get_priority (Entry.mk "a.txt" "grammar, spelling" "" "" "") :=
  ⟨claim_C10_min_rank.1 (Entry.mk "a.txt" "spelling, grammar" "" "" "") 0 (by decide) (by decide),
   claim_C10_min_rank.2 _ _ (by decide)⟩

/-- C6: within every file bucket of the catalog, entries are in ascending
order of priority rank, and the sort is stable: restricted to any fixed rank
value, the sorted bucket equals the unsorted (input-ordered) bucket, so
equal-ranked entries keep the relative order they had in the input. -/
theorem claim_C6_stable_sort :
    ∀ (data : List Entry) (fn : String),
      (filesDict data fn).Pairwise (fun a b => get_priority a.2 ≤ get_priority b.2)
      ∧ ∀ k : Nat,
          (filesDict data fn).filter (fun p => get_priority p.2 == k)
            = (rawBucket data fn).filter (fun p => get_priority p.2 == k) := by
  intro data fn
  constructor
  · exact pairwise_sortKey _ _
  · intro k
    exact filter_sortKey_eq _ k _

/-- The navigation session state held in `st.session_state`
(`src/app.py` lines 82-85): the selected filename and the current entry
index, a Python integer. -/
structure NavState where
  selected_file : String
  entry_idx : Int
deriving DecidableEq, Repr

/-- One script rerun after choosing filename `name` in the file selectbox
(`src/app.py` lines 88-94, 117-124): `selected_file` is set to `name`, the
entry list of the newly selected file is looked up in `files_dict`, and the
only adjustment of `entry_idx` is the clamp of lines 122-123, which resets it
to 0 exactly when it is `>=` the length of the new entry list — a file switch
performs no other reset of the index. -/
def selectFileRerun (data : List Entry) (s : NavState) (name : String) : NavState :=
  let entries := filesDict data name
  { selected_file := name
    entry_idx := if s.entry_idx ≥ (entries.length : Int) then 0 else s.entry_idx }

/-- C2: evaluation of the code at the failing input.  With a dataset holding
one entry of file `a.txt` and two entries of file `b.txt`, switching from
`a.txt` at entry index 1 to the different file `b.txt` leaves the index at 1
(in range for the two entries of `b.txt`, so the clamp does not fire), whereas
the claim requires the index to reset to 0 on every file switch. -/
theorem claim_C2_stale_index :
    selectFileRerun
        [Entry.mk "a.txt" "x" "" "" "", Entry.mk "b.txt" "x" "" "" "",
          Entry.mk "b.txt" "y" "" "" ""]
        (NavState.mk "a.txt" 1) "b.txt"
      = NavState.mk "b.txt" 1
    ∧ (1 : Int) ≠ 0 := by
  constructor
  · decide
  · decide

/-- A navigation interaction on the entry index (`navigation_controls`,
`src/app.py` lines 97-114): the Prev button, the Next button, or the entry
selectbox with a chosen option. -/
inductive NavOp where
  | prev : NavOp
  | next : NavOp
  | select : Int → NavOp
deriving DecidableEq, Repr

/-- One navigation step on the current entry index, with `n` the number of
entries of the selected file (`src/app.py` lines 97-114): Prev decrements only
when the index is `> 0`, Next increments only when the index is `< n - 1`, and
the entry selectbox sets the index to the chosen option, an element of
`range(n)` (values outside `0 .. n-1` cannot be produced by the widget and are
modelled as leaving the index unchanged). -/
def navStep (n : Nat) (idx : Int) : NavOp → Int
  | NavOp.prev => if idx > 0 then idx - 1 else idx
  | NavOp.next => if idx < (n : Int) - 1 then idx + 1 else idx
  | NavOp.select i => if 0 ≤ i ∧ i < (n : Int) then i else idx

/-- A finite sequence of navigation interactions applied in order. -/
def navRun (n : Nat) (idx : Int) (ops : List NavOp) : Int :=
  ops.foldl (navStep n) idx

theorem navStep_bounds (n : Nat) (idx : Int) (op : NavOp) (hn : 0 < n)
    (h0 : 0 ≤ idx) (h1 : idx ≤ (n : Int) - 1) :
    0 ≤ navStep n idx op ∧ navStep n idx op ≤ (n : Int) - 1 := by
  cases op with
  | prev => rw [navStep]; split <;> omega
  | next => rw [navStep]; split <;> omega
  | select i => rw [navStep]; split <;> omega

/-- C4: for a non-empty entry list of `n` entries, any finite sequence of
Prev/Next/select interactions started at an in-range index yields an index in
`[0, n-1]`; moreover Prev at the lower bound and Next at the upper bound leave
the index unchanged (and no step can error: every step totally computes an
index). -/
theorem claim_C4_navigation_bounds :
    (∀ (n : Nat) (ops : List NavOp) (idx : Int), 0 < n →
        0 ≤ idx → idx ≤ (n : Int) - 1 →
        0 ≤ navRun n idx ops ∧ navRun n idx ops ≤ (n : Int) - 1)
    ∧ (∀ n : Nat, navStep n 0 NavOp.prev = 0)
    ∧ (∀ n : Nat, navStep n ((n : Int) - 1) NavOp.next = (n : Int) - 1) := by
  refine ⟨?_, ?_, ?_⟩
  · intro n ops
    induction ops with
    | nil => intro idx hn h0 h1; exact ⟨h0, h1⟩
    | cons op rest ih =>
      intro idx hn h0 h1
      have hstep := navStep_bounds n idx op hn h0 h1
      exact ih (navStep n idx op) hn hstep.1 hstep.2
  · intro n; rw [navStep]; omega
  · intro n; rw [navStep]; omega

/-- C4 witness: with 2 entries, starting at index 1, the sequence
Prev, Next, Next, select 0, Prev stays within `[0, 1]`. -/
theorem claim_C4_witness :
    0 ≤ navRun 2 1 [NavOp.prev, NavOp.next, NavOp.next, NavOp.select 0, NavOp.prev]
    ∧ navRun 2 1 [NavOp.prev, NavOp.next, NavOp.next, NavOp.select 0, NavOp.prev]
        ≤ (2 : Int) - 1 :=
  claim_C4_navigation_bounds.1 2 _ 1 (by decide) (by decide) (by decide)

/-- A raw dataset record as it arrives in the JSON payload: each of the five
required fields may be present or absent.  A Python subscript access
`entry['f']` on an absent field raises `KeyError`. -/
structure RawEntry where
  filename : Option String
  keywords : Option String
  explanation : Option String
  original_txt : Option String
  correction : Option String
deriving DecidableEq, Repr

/-- A Python subscript access on a required field: the value when present,
a `KeyError` otherwise. -/
def requireField {α : Type} : Option α → Except String α
  | some v => Except.ok v
  | none => Except.error "KeyError"

/-- One pass over the dataset reading the selected field of every entry, as
the grouping loop (`src/app.py` lines 73-74, field `filename`) and the
sort-key computation (lines 66 and 77, field `keywords`; Python's `list.sort`
evaluates the key function on every element) do: stops at the first absent
field with a `KeyError`. -/
def checkFields (sel : RawEntry → Option String) : List RawEntry → Except String Unit
  | [] => Except.ok ()
  | e :: es =>
    match sel e with
    | some _ => checkFields sel es
    | none => Except.error "KeyError"

/-- Distinct elements in first-occurrence order: the key order of the
`defaultdict` built at `src/app.py` lines 72-74. -/
def dedupFirstAux : List String → List String → List String
  | _, [] => []
  | seen, x :: xs =>
    if seen.contains x then dedupFirstAux seen xs
    else x :: dedupFirstAux (x :: seen) xs

def dedupFirst (l : List String) : List String := dedupFirstAux [] l

/-- The dataset-loading stage of `src/app.py` lines 72-79 on a raw payload:
reading `entry['filename']` of every entry while grouping (line 74), then
reading `entry['keywords']` of every entry while computing the sort keys
(lines 66 and 77), then producing the grouped, priority-sorted catalog in
first-occurrence filename order.  Fields `explanation`, `original_txt` and
`correction` are not read at load time.  (The `getD` default in the sort key
is never taken: it is guarded by the preceding keywords check.) -/
def loadCatalog (data : List RawEntry) :
    Except String (List (String × List (Nat × RawEntry))) :=
  match checkFields (fun e => e.filename) data with
  | Except.error msg => Except.error msg
  | Except.ok _ =>
    match checkFields (fun e => e.keywords) data with
    | Except.error msg => Except.error msg
    | Except.ok _ =>
      Except.ok ((dedupFirst (data.filterMap (fun e => e.filename))).map (fun fn =>
        (fn, sortKey (fun p => priorityOfKeywords (p.2.keywords.getD ""))
              (data.enum.filter (fun p => p.2.filename == some fn)))))

/-- Rendering the currently selected entry (`src/app.py` lines 143-152):
subscript accesses of `keywords`, `explanation`, `original_txt` and
`correction` in that order; the first absent field raises `KeyError`. -/
def renderEntry (e : RawEntry) : Except String (String × String × String × String) := do
  let kws ← requireField e.keywords
  let expl ← requireField e.explanation
  let orig ← requireField e.original_txt
  let corr ← requireField e.correction
  pure (kws, expl, orig, corr)

/-- C9 counterexample: a payload whose single entry is missing the required
field `explanation` loads without any error — the load stage reads only
`filename` and `keywords` — contradicting the claim that a missing required
field makes loading fail with a cannot-parse-dataset error. -/
theorem claim_C9_counterexample :
    (loadCatalog [RawEntry.mk (some "a.txt") (some "x") none (some "t") (some "u")]).isOk
      = true
    ∧ (RawEntry.mk (some "a.txt") (some "x") none (some "t") (some "u")).explanation
      = none := by
  constructor
  · rfl
  · rfl

theorem checkFields_ok_iff (sel : RawEntry → Option String) :
    ∀ (data : List RawEntry),
      checkFields sel data = Except.ok () ↔ data.all (fun e => (sel e).isSome) = true := by
  intro data
  induction data with
  | nil => simp [checkFields]
  | cons e es ih =>
    cases hsel : sel e with
    | none => simp [checkFields, hsel]
    | some v => simp [checkFields, hsel, ih]

theorem checkFields_ok_or_error (sel : RawEntry → Option String) :
    ∀ (data : List RawEntry),
      checkFields sel data = Except.ok () ∨ checkFields sel data = Except.error "KeyError" := by
  intro data
  induction data with
  | nil => left; rfl
  | cons e es ih =>
    cases hsel : sel e with
    | none => right; simp [checkFields, hsel]
    | some v => simpa [checkFields, hsel] using ih

/-- C9 (amended): loading fails (with a `KeyError`) iff some entry is missing
`filename` or `keywords`; an entry missing only `explanation`, `original_txt`
or `correction` is loaded into the catalog without error (it is not skipped),
and the missing field surfaces only when that entry is rendered, as shown by
`renderEntry` failing on every entry with an absent `explanation`. -/
theorem claim_C9_load_errors :
    (∀ (data : List RawEntry),
        (loadCatalog data).isOk = true
          ↔ data.all (fun e => e.filename.isSome && e.keywords.isSome) = true)
    ∧ (∀ (e : RawEntry), e.explanation = none → (renderEntry e).isOk = false) := by
  constructor
  · intro data
    rcases checkFields_ok_or_error (fun e => e.filename) data with hf | hf
    · rcases checkFields_ok_or_error (fun e => e.keywords) data with hk | hk
      · have h1 := (checkFields_ok_iff (fun e => e.filename) data).mp hf
        have h2 := (checkFields_ok_iff (fun e => e.keywords) data).mp hk
        simp only [List.all_eq_true] at h1 h2
        simp only [loadCatalog, hf, hk, Except.isOk, Except.toBool,
          List.all_eq_true, Bool.and_eq_true]
        constructor
        · intro _ e he
          exact ⟨h1 e he, h2 e he⟩
        · intro _; trivial
      · simp only [loadCatalog, hf, hk, Except.isOk, Except.toBool,
          List.all_eq_true, Bool.and_eq_true]
        constructor
        · intro h; cases h
        · intro h
          exfalso
          have hok : checkFields (fun e => e.keywords) data = Except.ok () := by
            rw [checkFields_ok_iff, List.all_eq_true]
            intro e he; exact (h e he).2
          rw [hok] at hk; cases hk
    · simp only [loadCatalog, hf, Except.isOk, Except.toBool,
        List.all_eq_true, Bool.and_eq_true]
      constructor
      · intro h; cases h
      · intro h
        exfalso
        have hok : checkFields (fun e => e.filename) data = Except.ok () := by
          rw [checkFields_ok_iff, List.all_eq_true]
          intro e he; exact (h e he).1
        rw [hok] at hf; cases hf
  · intro e he
    cases hk : e.keywords with
    | none => simp [renderEntry, requireField, hk, Except.isOk, Except.toBool, Bind.bind, Except.bind]
    | some v => simp [renderEntry, requireField, hk, he, Except.isOk, Except.toBool, Bind.bind, Except.bind]

/-- C9 witness for the amended claim: a well-formed single-entry payload
loads successfully, and the counterexample entry with a missing
`explanation` fails at rendering time. -/
theorem claim_C9_witness :
    (loadCatalog [RawEntry.mk (some "b.txt") (some "grammar") (some "e") (some "t") (some "u")]).isOk
      = true
    ∧ (renderEntry (RawEntry.mk (some "b.txt") (some "grammar") none (some "t") (some "u"))).isOk
      = false :=
  ⟨(claim_C9_load_errors.1 _).mpr (by decide), claim_C9_load_errors.2 _ rfl⟩

section Diff

/-- Modelled from the spec: the splitting of a text into its line sequence
(`§4.2`: "Split both texts into line sequences on line boundaries (no trailing
empty line introduced by a final line terminator)", the behaviour of Python's
`str.splitlines` used by the diff call at `src/app.py` lines 156-163, whose
implementation is in the standard library, not in this repository).  Split on
a newline character, with no trailing empty line for a final newline and with
the empty text yielding no lines. -/
def splitLinesAux : List Char → List Char → List (List Char)
  | [], acc => if acc.isEmpty then [] else [acc.reverse]
  | c :: cs, acc =>
    if c = '\n' then acc.reverse :: splitLinesAux cs [] else splitLinesAux cs (c :: acc)

def splitLines (s : String) : List (List Char) := splitLinesAux s.data []

variable {α : Type} [DecidableEq α]

/-- The length of the longest common prefix of two sequences. -/
def commonLen : List α → List α → Nat
  | x :: xs, y :: ys => if x = y then commonLen xs ys + 1 else 0
  | _, _ => 0

theorem commonLen_le_left : ∀ (xs ys : List α), commonLen xs ys ≤ xs.length := by
  intro xs
  induction xs with
  | nil => intro ys; cases ys <;> simp [commonLen]
  | cons x xs ih =>
    intro ys
    cases ys with
    | nil => simp [commonLen]
    | cons y ys =>
      by_cases h : x = y <;> simp [commonLen, h]
      exact ih ys

theorem commonLen_le_right : ∀ (xs ys : List α), commonLen xs ys ≤ ys.length := by
  intro xs
  induction xs with
  | nil => intro ys; cases ys <;> simp [commonLen]
  | cons x xs ih =>
    intro ys
    cases ys with
    | nil => simp [commonLen]
    | cons y ys =>
      by_cases h : x = y <;> simp [commonLen, h]
      exact ih ys

theorem take_commonLen : ∀ (xs ys : List α),
    xs.take (commonLen xs ys) = ys.take (commonLen xs ys) := by
  intro xs
  induction xs with
  | nil => intro ys; cases ys <;> simp [commonLen]
  | cons x xs ih =>
    intro ys
    cases ys with
    | nil => simp [commonLen]
    | cons y ys =>
      by_cases h : x = y
      · simp [commonLen, h, List.take_succ_cons, ih ys]
      · simp [commonLen, h]

theorem commonLen_self : ∀ (xs : List α), commonLen xs xs = xs.length := by
  intro xs
  induction xs with
  | nil => simp [commonLen]
  | cons x xs ih => simp [commonLen, ih]

/-- Modelled from the spec (`§4.2`): all candidate match positions of the two
sequences, in leftmost (lexicographic) order, each with the length of the
common run starting there. -/
def matchCandidates (a b : List α) : List (Nat × Nat × Nat) :=
  ((List.range a.length).map (fun i =>
    (List.range b.length).map (fun j => (i, j, commonLen (a.drop i) (b.drop j))))).flatten

/-- Keep the candidate with the strictly larger run, preferring the earlier
(leftmost) one on ties — the conventional greedy-leftmost tie-break. -/
def pickBetter (best c : Nat × Nat × Nat) : Nat × Nat × Nat :=
  if best.2.2 < c.2.2 then c else best

/-- Modelled from the spec (`§4.2`): the longest matching block of the two
sequences, earliest first; `(0, 0, 0)` when the sequences have no common
element. -/
def bestMatch (a b : List α) : Nat × Nat × Nat :=
  (matchCandidates a b).foldl pickBetter (0, 0, 0)

theorem foldl_pickBetter_mem :
    ∀ (l : List (Nat × Nat × Nat)) (init : Nat × Nat × Nat),
      l.foldl pickBetter init ∈ init :: l := by
  intro l
  induction l with
  | nil => intro init; simp
  | cons c cs ih =>
    intro init
    rw [List.foldl_cons]
    have h := ih (pickBetter init c)
    rcases List.mem_cons.mp h with h | h
    · rw [h]
      by_cases hlt : init.2.2 < c.2.2 <;> simp [pickBetter, hlt]
    · simp [h]

theorem foldl_pickBetter_init_le :
    ∀ (l : List (Nat × Nat × Nat)) (init : Nat × Nat × Nat),
      init.2.2 ≤ (l.foldl pickBetter init).2.2 := by
  intro l
  induction l with
  | nil => intro init; simp
  | cons d ds ih =>
    intro init
    rw [List.foldl_cons]
    have hstep : init.2.2 ≤ (pickBetter init d).2.2 := by
      by_cases hlt : init.2.2 < d.2.2 <;> simp [pickBetter, hlt] <;> omega
    exact le_trans hstep (ih (pickBetter init d))

theorem foldl_pickBetter_k_ge :
    ∀ (l : List (Nat × Nat × Nat)) (init c : Nat × Nat × Nat), c ∈ l →
      c.2.2 ≤ (l.foldl pickBetter init).2.2 := by
  intro l
  induction l with
  | nil => intro init c h; simp at h
  | cons d ds ih =>
    intro init c h
    rw [List.foldl_cons]
    rcases List.mem_cons.mp h with rfl | h
    · have hstep : c.2.2 ≤ (pickBetter init c).2.2 := by
        by_cases hlt : init.2.2 < c.2.2 <;> simp [pickBetter, hlt] <;> omega
      exact le_trans hstep (foldl_pickBetter_init_le ds (pickBetter init c))
    · exact ih (pickBetter init d) c h

theorem mem_matchCandidates {a b : List α} {c : Nat × Nat × Nat} :
    c ∈ matchCandidates a b →
      c.1 < a.length ∧ c.2.1 < b.length ∧ c.2.2 = commonLen (a.drop c.1) (b.drop c.2.1) := by
  intro h
  rw [matchCandidates, List.mem_flatten] at h
  obtain ⟨row, hrow, hc⟩ := h
  rw [List.mem_map] at hrow
  obtain ⟨i, hi, rfl⟩ := hrow
  rw [List.mem_map] at hc
  obtain ⟨j, hj, rfl⟩ := hc
  exact ⟨List.mem_range.mp hi, List.mem_range.mp hj, rfl⟩

theorem bestMatch_cases (a b : List α) :
    bestMatch a b = (0, 0, 0) ∨ bestMatch a b ∈ matchCandidates a b := by
  have h := foldl_pickBetter_mem (matchCandidates a b) (0, 0, 0)
  rcases List.mem_cons.mp h with h | h
  · exact Or.inl h
  · exact Or.inr h

/-- When the best match has a non-zero run, its indices are in range and its
run length is the common-prefix length at those indices. -/
theorem bestMatch_spec (a b : List α) (hk : (bestMatch a b).2.2 ≠ 0) :
    (bestMatch a b).1 < a.length ∧ (bestMatch a b).2.1 < b.length ∧
      (bestMatch a b).2.2
        = commonLen (a.drop (bestMatch a b).1) (b.drop (bestMatch a b).2.1) := by
  rcases bestMatch_cases a b with h | h
  · rw [h] at hk; simp at hk
  · exact mem_matchCandidates h

theorem matchCandidates_k_le (a b : List α) :
    ∀ c ∈ matchCandidates a b, c.2.2 ≤ a.length := by
  intro c hc
  obtain ⟨h1, h2, h3⟩ := mem_matchCandidates hc
  calc c.2.2 = commonLen (a.drop c.1) (b.drop c.2.1) := h3
    _ ≤ (a.drop c.1).length := commonLen_le_left _ _
    _ ≤ a.length := by rw [List.length_drop]; omega

/-- The pair `(0, 0, commonLen a a) = (0, 0, a.length)` is a candidate of
`a` against itself whenever `a` is non-empty. -/
theorem self_candidate_mem (a : List α) (ha : a ≠ []) :
    ((0, 0, a.length) : Nat × Nat × Nat) ∈ matchCandidates a a := by
  have hlen : 0 < a.length := List.length_pos.mpr ha
  rw [matchCandidates, List.mem_flatten]
  refine ⟨(List.range a.length).map
    (fun j => ((0 : Nat), j, commonLen (a.drop 0) (a.drop j))), ?_, ?_⟩
  · rw [List.mem_map]
    exact ⟨0, List.mem_range.mpr hlen, rfl⟩
  · rw [List.mem_map]
    refine ⟨0, List.mem_range.mpr hlen, ?_⟩
    simp [commonLen_self]

/-- Against itself, a non-empty sequence's best match is the whole sequence
at the start. -/
theorem bestMatch_self (a : List α) (ha : a ≠ []) :
    bestMatch a a = (0, 0, a.length) := by
  have hkge : a.length ≤ (bestMatch a a).2.2 :=
    foldl_pickBetter_k_ge (matchCandidates a a) (0, 0, 0) _ (self_candidate_mem a ha)
  have hkne : (bestMatch a a).2.2 ≠ 0 := by
    have : 0 < a.length := List.length_pos.mpr ha
    omega
  obtain ⟨hi, hj, hk⟩ := bestMatch_spec a a hkne
  have hle1 : (bestMatch a a).2.2 ≤ a.length - (bestMatch a a).1 := by
    rw [hk]
    calc commonLen (a.drop (bestMatch a a).1) (a.drop (bestMatch a a).2.1)
        ≤ (a.drop (bestMatch a a).1).length := commonLen_le_left _ _
      _ = a.length - (bestMatch a a).1 := List.length_drop _ _
  have hle2 : (bestMatch a a).2.2 ≤ a.length - (bestMatch a a).2.1 := by
    rw [hk]
    calc commonLen (a.drop (bestMatch a a).1) (a.drop (bestMatch a a).2.1)
        ≤ (a.drop (bestMatch a a).2.1).length := commonLen_le_right _ _
      _ = a.length - (bestMatch a a).2.1 := List.length_drop _ _
  have h1 : (bestMatch a a).1 = 0 := by omega
  have h2 : (bestMatch a a).2.1 = 0 := by omega
  have h3 : (bestMatch a a).2.2 = a.length := by omega
  calc bestMatch a a = ((bestMatch a a).1, (bestMatch a a).2.1, (bestMatch a a).2.2) := rfl
    _ = (0, 0, a.length) := by rw [h1, h2, h3]

/-- The kind of a diff operation (`§4.2`: one of equal, insert, delete,
replace). -/
inductive Tag where
  | equal : Tag
  | delete : Tag
  | insert : Tag
  | replace : Tag
deriving DecidableEq, BEq, Repr

/-- Modelled from the spec (`§4.2`): one diff operation, carrying the index
ranges it covers in the original (`i1..i2`) and corrected (`j1..j2`) line
sequences. -/
structure Op where
  tag : Tag
  i1 : Nat
  i2 : Nat
  j1 : Nat
  j2 : Nat
deriving DecidableEq, Repr

/-- Modelled from the spec (`§4.2`): the LCS-style opcode generation of the
diff engine (the algorithm class of `difflib.SequenceMatcher`, whose
implementation lives in the Python standard library, not in this repository):
find the longest (leftmost) matching block of the two sequences, emit an
`equal` opcode for it and recurse on the parts before and after it; a region
with no common line becomes a single `replace`/`delete`/`insert` opcode.
`oa`/`ob` are the global indices of the start of `a`/`b` in the full
sequences. -/
def diffRec (a b : List α) (oa ob : Nat) : List Op :=
  if hk : (bestMatch a b).2.2 = 0 then
    if a.isEmpty then
      if b.isEmpty then []
      else [Op.mk Tag.insert oa oa ob (ob + b.length)]
    else if b.isEmpty then [Op.mk Tag.delete oa (oa + a.length) ob ob]
    else [Op.mk Tag.replace oa (oa + a.length) ob (ob + b.length)]
  else
    diffRec (a.take (bestMatch a b).1) (b.take (bestMatch a b).2.1) oa ob
      ++ Op.mk Tag.equal (oa + (bestMatch a b).1)
          (oa + (bestMatch a b).1 + (bestMatch a b).2.2)
          (ob + (bestMatch a b).2.1)
          (ob + (bestMatch a b).2.1 + (bestMatch a b).2.2)
        :: diffRec (a.drop ((bestMatch a b).1 + (bestMatch a b).2.2))
            (b.drop ((bestMatch a b).2.1 + (bestMatch a b).2.2))
            (oa + (bestMatch a b).1 + (bestMatch a b).2.2)
            (ob + (bestMatch a b).2.1 + (bestMatch a b).2.2)
termination_by a.length + b.length
decreasing_by
  · obtain ⟨hi, hj, _⟩ := bestMatch_spec a b hk
    simp only [List.length_take]
    omega
  · obtain ⟨hi, hj, _⟩ := bestMatch_spec a b hk
    have hkpos : (bestMatch a b).2.2 ≠ 0 := hk
    simp only [List.length_drop]
    omega

/-- Modelled from the spec (`§4.2`): `computeDiff(originalText,
correctedText)`: split both texts into line sequences and align them. -/
def computeDiff (originalText correctedText : String) : List Op :=
  diffRec (splitLines originalText) (splitLines correctedText) 0 0

/-- The lines one operation contributes when the diff is applied to the
original sequence `a`: an `equal` op contributes the lines it covers in `a`,
a `delete` op contributes nothing, and `insert`/`replace` ops contribute the
covered lines of the corrected sequence `b` (the replacement text the op
carries via its `j` range). -/
def opLines (a b : List α) (op : Op) : List α :=
  match op.tag with
  | Tag.equal => (a.drop op.i1).take (op.i2 - op.i1)
  | Tag.delete => []
  | _ => (b.drop op.j1).take (op.j2 - op.j1)

/-- Applying an ordered operation sequence to the original line sequence. -/
def applyOpcodes (a b : List α) (ops : List Op) : List α :=
  (ops.map (opLines a b)).flatten

theorem applyOpcodes_append (a b : List α) (l₁ l₂ : List Op) :
    applyOpcodes a b (l₁ ++ l₂) = applyOpcodes a b l₁ ++ applyOpcodes a b l₂ := by
  simp [applyOpcodes]

theorem applyOpcodes_cons (a b : List α) (op : Op) (l : List Op) :
    applyOpcodes a b (op :: l) = opLines a b op ++ applyOpcodes a b l := by
  simp [applyOpcodes]

theorem take_length_of_prefix {l s : List α} (h : l <+: s) :
    s.take l.length = l := by
  obtain ⟨t, rfl⟩ := h
  exact List.take_left l t

/-- The round-trip invariant of the recursive alignment: whenever `a` and `b`
are the slices of the full sequences `A` and `B` starting at the offsets
`oa` and `ob`, applying the opcodes of `diffRec a b oa ob` to `A` (with `B`
supplying inserted lines) reconstructs `b` exactly. -/
theorem applyOpcodes_diffRec :
    ∀ (n : Nat) (a b A B : List α) (oa ob : Nat),
      a.length + b.length ≤ n →
      a <+: A.drop oa → b <+: B.drop ob →
      applyOpcodes A B (diffRec a b oa ob) = b := by
  intro n
  induction n using Nat.strong_induction_on with
  | _ n ih =>
    intro a b A B oa ob hn ha hb
    by_cases hk : (bestMatch a b).2.2 = 0
    · rw [diffRec, dif_pos hk]
      by_cases ha0 : a.isEmpty
      · by_cases hb0 : b.isEmpty
        · rw [if_pos ha0, if_pos hb0, List.isEmpty_iff.mp hb0]
          simp [applyOpcodes]
        · rw [if_pos ha0, if_neg hb0]
          rw [applyOpcodes_cons, opLines]
          simp only [applyOpcodes, List.map_nil, List.flatten_nil, List.append_nil]
          have hj2 : ob + b.length - ob = b.length := by omega
          rw [hj2]
          exact take_length_of_prefix hb
      · by_cases hb0 : b.isEmpty
        · rw [if_neg ha0, if_pos hb0, List.isEmpty_iff.mp hb0]
          rw [applyOpcodes_cons, opLines]
          simp [applyOpcodes]
        · rw [if_neg ha0, if_neg hb0]
          rw [applyOpcodes_cons, opLines]
          simp only [applyOpcodes, List.map_nil, List.flatten_nil, List.append_nil]
          have hj2 : ob + b.length - ob = b.length := by omega
          rw [hj2]
          exact take_length_of_prefix hb
    · obtain ⟨hi, hj, hkc⟩ := bestMatch_spec a b hk
      have hik : (bestMatch a b).1 + (bestMatch a b).2.2 ≤ a.length := by
        have := commonLen_le_left (a.drop (bestMatch a b).1) (b.drop (bestMatch a b).2.1)
        rw [← hkc, List.length_drop] at this
        omega
      have hjk : (bestMatch a b).2.1 + (bestMatch a b).2.2 ≤ b.length := by
        have := commonLen_le_right (a.drop (bestMatch a b).1) (b.drop (bestMatch a b).2.1)
        rw [← hkc, List.length_drop] at this
        omega
      obtain ⟨t, ht⟩ := ha
      obtain ⟨u, hu⟩ := hb
      rw [diffRec, dif_neg hk, applyOpcodes_append, applyOpcodes_cons]
      have hkpos : 0 < (bestMatch a b).2.2 := Nat.pos_of_ne_zero hk
      -- the part before the match
      have hleft : applyOpcodes A B
          (diffRec (a.take (bestMatch a b).1) (b.take (bestMatch a b).2.1) oa ob)
            = b.take (bestMatch a b).2.1 := by
        apply ih (n - 1) (by omega)
        · simp only [List.length_take]
          omega
        · exact List.IsPrefix.trans (List.take_prefix _ a) ⟨t, ht⟩
        · exact List.IsPrefix.trans (List.take_prefix _ b) ⟨u, hu⟩
      -- the matched block, read from A, equals the matched block of b
      have hmid : opLines A B
          (Op.mk Tag.equal (oa + (bestMatch a b).1)
            (oa + (bestMatch a b).1 + (bestMatch a b).2.2)
            (ob + (bestMatch a b).2.1)
            (ob + (bestMatch a b).2.1 + (bestMatch a b).2.2))
            = (b.drop (bestMatch a b).2.1).take (bestMatch a b).2.2 := by
        rw [opLines]
        simp only
        have harith : oa + (bestMatch a b).1 + (bestMatch a b).2.2
            - (oa + (bestMatch a b).1) = (bestMatch a b).2.2 := by omega
        rw [harith]
        have hAdrop : A.drop (oa + (bestMatch a b).1)
            = a.drop (bestMatch a b).1 ++ t := by
          rw [← List.drop_drop, ← ht, List.drop_append_eq_append_drop,
            Nat.sub_eq_zero_of_le (le_of_lt hi), List.drop_zero]
        rw [hAdrop, List.take_append_eq_append_take]
        have hlen : (bestMatch a b).2.2 - (a.drop (bestMatch a b).1).length = 0 := by
          rw [List.length_drop]; omega
        rw [hlen, List.take_zero, List.append_nil, hkc, take_commonLen]
      -- the part after the match
      have hA2 : List.drop (oa + (bestMatch a b).1 + (bestMatch a b).2.2) A
          = a.drop ((bestMatch a b).1 + (bestMatch a b).2.2) ++ t := by
        rw [Nat.add_assoc, ← List.drop_drop, ← ht, List.drop_append_eq_append_drop,
          Nat.sub_eq_zero_of_le hik, List.drop_zero]
      have hB2 : List.drop (ob + (bestMatch a b).2.1 + (bestMatch a b).2.2) B
          = b.drop ((bestMatch a b).2.1 + (bestMatch a b).2.2) ++ u := by
        rw [Nat.add_assoc, ← List.drop_drop, ← hu, List.drop_append_eq_append_drop,
          Nat.sub_eq_zero_of_le hjk, List.drop_zero]
      have hright : applyOpcodes A B
          (diffRec (a.drop ((bestMatch a b).1 + (bestMatch a b).2.2))
            (b.drop ((bestMatch a b).2.1 + (bestMatch a b).2.2))
            (oa + (bestMatch a b).1 + (bestMatch a b).2.2)
            (ob + (bestMatch a b).2.1 + (bestMatch a b).2.2))
            = b.drop ((bestMatch a b).2.1 + (bestMatch a b).2.2) := by
        apply ih (n - 1) (by omega)
        · simp only [List.length_drop]
          omega
        · rw [hA2]
          exact ⟨t, rfl⟩
        · rw [hB2]
          exact ⟨u, rfl⟩
      rw [hleft, hmid, hright, ← List.drop_drop, List.take_append_drop,
        List.take_append_drop]

theorem bestMatch_nil_nil : bestMatch ([] : List α) [] = (0, 0, 0) := by
  rcases bestMatch_cases ([] : List α) [] with h | h
  · exact h
  · have := (mem_matchCandidates h).1
    simp at this

theorem diffRec_nil_nil (oa ob : Nat) : diffRec ([] : List α) [] oa ob = [] := by
  rw [diffRec, dif_pos (by rw [bestMatch_nil_nil])]
  simp

/-- Diffing a non-empty sequence against itself yields a single full-width
`equal` opcode: the whole sequence is its own longest leftmost match and both
leftover regions are empty. -/
theorem diffRec_self (l : List α) (hl : l ≠ []) (oa ob : Nat) :
    diffRec l l oa ob
      = [Op.mk Tag.equal oa (oa + l.length) ob (ob + l.length)] := by
  have hbm := bestMatch_self l hl
  have hk : ¬((bestMatch l l).2.2 = 0) := by
    rw [hbm]
    show l.length ≠ 0
    have := List.length_pos.mpr hl
    omega
  rw [diffRec, dif_neg hk]
  simp only [hbm, List.take_zero, List.drop_drop]
  rw [diffRec_nil_nil]
  have hdrop : l.drop (0 + l.length) = [] := by
    simp
  rw [hdrop, diffRec_nil_nil]
  simp

end Diff

/-- C3: the diff computation is deterministic: on equal input texts it
produces identical structured output (it is a pure function of its two
arguments, with no dependence on any other state). -/
theorem claim_C3_deterministic :
    ∀ (a b a' b' : String), a = a' → b = b' → computeDiff a b = computeDiff a' b' := by
  intro a b a' b' h1 h2
  rw [h1, h2]

/-- C3 witness: two calls on the concrete input pair agree. -/
theorem claim_C3_witness :
    computeDiff "x\ny" "x\nz" = computeDiff "x\ny" "x\nz" :=
  claim_C3_deterministic "x\ny" "x\nz" "x\ny" "x\nz" rfl rfl

/-- C7: for every pair of texts, applying the ordered operation sequence of
`computeDiff A B` to `A`'s line sequence (equal operations copy the covered
lines of `A`, deletes drop their lines, inserts and replaces contribute the
corrected lines they carry) reconstructs exactly `B`'s line sequence. -/
theorem claim_C7_diff_roundtrip :
    ∀ (origText corrText : String),
      applyOpcodes (splitLines origText) (splitLines corrText)
          (computeDiff origText corrText)
        = splitLines corrText := by
  intro origText corrText
  apply applyOpcodes_diffRec
      ((splitLines origText).length + (splitLines corrText).length)
  · exact le_refl _
  · rw [List.drop_zero]
  · rw [List.drop_zero]

/-- C8: diffing a text against itself yields only `equal` operations — no
insert, delete or replace — and those operations cover every line: applying
them reproduces the full line sequence. -/
theorem claim_C8_diff_identity :
    ∀ (x : String),
      (computeDiff x x).all (fun op => op.tag == Tag.equal) = true
      ∧ applyOpcodes (splitLines x) (splitLines x) (computeDiff x x)
          = splitLines x := by
  intro x
  by_cases h : splitLines x = []
  · rw [computeDiff, h, diffRec_nil_nil]
    exact ⟨rfl, rfl⟩
  · rw [computeDiff, diffRec_self _ h]
    constructor
    · rfl
    · rw [applyOpcodes_cons, opLines]
      simp [applyOpcodes]

end PRViewer
